import Mathlib

/-!
Verification of the `pymtl.misc.numerics` module.

Matrices are embedded as lists of rows (`Mat α = List (List α)`), mirroring
the 2-D arrays of the source.  Numbers are embedded as elements of an exact
field (rationals in the concrete instances); the square root of two that the
source obtains from `np.sqrt(2)` is passed as an explicit field element, and
the floating-point primitives the source delegates to an external linear
algebra library (SVD, Frobenius norm, logarithm) are supplied as an explicit
oracle record.
-/

set_option linter.unusedSectionVars false

set_option linter.unusedVariables false

namespace PyMTLNumerics

/-- A matrix is a list of rows, as a 2-D array. -/
abbrev Mat (α : Type) := List (List α)

section Shape

variable {α : Type} [Zero α]

/-- Entry access `X[i][j]`, with the out-of-range value 0. -/
def entry (X : Mat α) (i j : ℕ) : α :=
  (X.getD i []).getD j 0

/-- `wf X m n` says that `X` is a well-formed `m × n` array. -/
def wf (X : Mat α) (m n : ℕ) : Prop :=
  X.length = m ∧ ∀ row ∈ X, row.length = n

instance (X : Mat α) (m n : ℕ) : Decidable (wf X m n) := by
  unfold wf
  infer_instance

/-- Builds the `m × n` matrix with entry function `f`. -/
def mkMat (m n : ℕ) (f : ℕ → ℕ → α) : Mat α :=
  (List.range m).map (fun i => (List.range n).map (fun j => f i j))

/-- Embedding of `numpy.transpose` (the `.T` attribute): the row count of the
result is read off the first row of the argument. -/
def transposeM (X : Mat α) : Mat α :=
  (List.range (X.headD []).length).map (fun j => X.map (fun row => row.getD j 0))

/-- Embedding of `np.zeros((m, n))`. -/
def zerosM (m n : ℕ) : Mat α :=
  mkMat m n (fun _ _ => 0)

/-- Row-major reshape of a flat sequence into `m` rows of `n` entries,
embedding `v.reshape(m, n)`. -/
def reshapeRows : ℕ → ℕ → List α → Mat α
  | 0, _, _ => []
  | m + 1, n, v => (List.range n).map (fun j => v.getD j 0) :: reshapeRows m n (v.drop n)

/-- Source `vec(X, stack_cols)`: `X.T.flatten()` when `stack_cols` else
`X.flatten()`. -/
def vec (X : Mat α) (stack_cols : Bool) : List α :=
  if stack_cols then (transposeM X).flatten else X.flatten

/-- Source `unvec(v, cols_stacked)`: recovers `d = int(np.sqrt(len(v)))` and
reshapes to `d × d`, transposing when the columns were stacked. -/
def unvec (v : List α) (cols_stacked : Bool) : Mat α :=
  let d := Nat.sqrt v.length
  if cols_stacked then transposeM (reshapeRows d d v) else reshapeRows d d v

end Shape

section TriangularHalf

variable {α : Type} [DivisionRing α]

/-- The upper-triangular index pairs of a `d × d` matrix, in the traversal
order of the source loops: column-major (`for c: for r in range(c+1)`) when
`stack_cols`, row-major (`for r: for c in range(r, d)`) otherwise. -/
def triuIdx (d : ℕ) (stack_cols : Bool) : List (ℕ × ℕ) :=
  if stack_cols then
    ((List.range d).map (fun c => (List.range (c + 1)).map (fun r => (r, c)))).flatten
  else
    ((List.range d).map (fun r => (List.range' r (d - r)).map (fun c => (r, c)))).flatten

/-- Source `vech(X, stack_cols, conserve_norm)`.  When `conserve_norm`, the
strictly upper-triangular entries are pre-multiplied by `np.sqrt(2)`, passed
here as the field element `sqrt2`; then the upper triangle is extracted in
the selected traversal order. -/
def vech (X : Mat α) (stack_cols conserve_norm : Bool) (sqrt2 : α) : List α :=
  let tmp : ℕ → ℕ → α := fun r c =>
    if conserve_norm then (if r < c then sqrt2 * entry X r c else entry X r c)
    else entry X r c
  (triuIdx X.length stack_cols).map (fun p => tmp p.1 p.2)

/-- The body of `unvech` at an explicitly given dimension `d`: `X1` is the
matrix after the fancy assignment `X[triu_idx] = v` (an entry holds the
`v`-element whose position in the index list matches it), `X2` after
mirroring the lower triangle (`X[tril] = X.T[tril]`), and `X3` after the
off-diagonal entries are divided by `sqrt(2)` when `norm_conserved`. -/
def unvechAt (v : List α) (d : ℕ) (cols_stacked norm_conserved : Bool)
    (sqrt2 : α) : Mat α :=
  let idx := triuIdx d cols_stacked
  let X1 : ℕ → ℕ → α := fun r c => v.getD (idx.indexOf (r, c)) 0
  let X2 : ℕ → ℕ → α := fun r c => if c ≤ r then X1 c r else X1 r c
  let X3 : ℕ → ℕ → α := fun r c =>
    if norm_conserved then (if r = c then X2 r c else X2 r c / sqrt2) else X2 r c
  mkMat d d X3

/-- Source `unvech(v, cols_stacked, norm_conserved)`.  The dimension is
recovered as `d = int(0.5 * (sqrt(8 len + 1) - 1))`, then the triangle is
rebuilt by `unvechAt`. -/
def unvech (v : List α) (cols_stacked norm_conserved : Bool) (sqrt2 : α) : Mat α :=
  unvechAt v ((Nat.sqrt (8 * v.length + 1) - 1) / 2) cols_stacked norm_conserved sqrt2

/-- Sum of squared entries of a flat sequence: the square of its Euclidean
norm. -/
def sqNormList (v : List α) : α :=
  (v.map (fun x => x * x)).sum

/-- Sum of squared entries of a matrix: the square of its Frobenius norm. -/
def frobSqM (X : Mat α) : α :=
  (X.map (fun row => (row.map (fun x => x * x)).sum)).sum

end TriangularHalf

section LowRank

variable {α : Type} [CommRing α]

/-- Embedding of `np.outer(u, v)`. -/
def outerM (u v : List α) : Mat α :=
  u.map (fun x => v.map (fun y => x * y))

/-- Scalar multiple of a matrix. -/
def smulM (c : α) (M : Mat α) : Mat α :=
  M.map (List.map (fun x => c * x))

/-- Embedding of the in-place `Z += M`: entrywise sum when the shapes agree,
failure otherwise.  (In the source a shape mismatch between `Z` and the added
outer-product term raises a broadcast `ValueError`; for the shapes this code
produces, in-place broadcasting never applies, so exact shape equality is the
faithful success condition.) -/
def matAddChecked (A B : Mat α) : Option (Mat α) :=
  if A.map List.length = B.map List.length then
    some (List.zipWith (List.zipWith (fun x y => x + y)) A B)
  else none

/-- One pass of the `low_rank_approx` accumulation loop:
`Z += s[i] * np.outer(u.T[i], v[i])`, with each indexing fallible. -/
def lraStep (u : Mat α) (s : List α) (v : Mat α) (Z : Mat α) (i : ℕ) :
    Option (Mat α) := do
  let ui ← (transposeM u).get? i
  let si ← s.get? i
  let vi ← v.get? i
  matAddChecked Z (smulM si (outerM ui vi))

/-- Source `low_rank_approx(X, r)`, parameterised by the external economy-mode
SVD primitive `svdE` (`np.linalg.svd(X, full_matrices=False)`, returning
`(u, s, v)`).  `Z` starts as `np.zeros((len(u), len(v)))` — note `len(v)` is
the number of ROWS of `v`, i.e. `min(m, n)` — and the loop adds
`s[i] * np.outer(u.T[i], v[i])` for `i < r`, with every indexing and the
in-place addition modelled as fallible. -/
def low_rank_approx (svdE : Mat α → Mat α × List α × Mat α) (X : Mat α) (r : ℕ) :
    Option (Mat α) :=
  let t := svdE X
  let u := t.1
  let s := t.2.1
  let v := t.2.2
  let Z0 : Mat α := zerosM u.length v.length
  (List.range r).foldlM (lraStep u s v) Z0

end LowRank

/-- The rank bound of the seed estimate in `complete_matrix`:
`int(max(1, X.shape[0] * 0.1))`.  `int` truncates toward zero; the argument is
at least 1, so this is the floor. -/
def seedRank (m : ℕ) : ℕ :=
  Nat.floor (max (1 : ℚ) ((m : ℚ) * (1 / 10)))

/-- The seed rank bound exactly as the specification sentence states it:
`max(1, round(0.1 * m))`.  Stated from the spec words, for comparison with
`seedRank`. -/
def seedRankSpec (m : ℕ) : ℤ :=
  max 1 (round ((1 / 10 : ℚ) * m))

section Completion

variable {α : Type} [LinearOrderedField α]

/-- The external linear-algebra and transcendental primitives the source
takes from `numpy`: full SVD, economy SVD, Frobenius norm, and the natural
logarithm.  The completion routine is embedded relative to such an oracle. -/
structure NumOracle (α : Type) where
  svd : Mat α → Mat α × List α × Mat α
  svdEcon : Mat α → Mat α × List α × Mat α
  fro : Mat α → α
  log : α → α

/-- Embedding of `np.max` on the singular-value vector (the default value 0
is only relevant for an empty input). -/
def npMax (l : List α) : α :=
  l.foldr max 0

/-- Column `j` of a matrix. -/
def colM (B : Mat α) (j : ℕ) : List α :=
  B.map (fun row => row.getD j 0)

/-- Embedding of `A.dot(B)` for well-shaped operands. -/
def matMul (A B : Mat α) : Mat α :=
  A.map (fun rowA =>
    (List.range (B.headD []).length).map (fun j =>
      (List.zipWith (fun x y => x * y) rowA (colM B j)).sum))

/-- Embedding of `np.diag(l)`. -/
def diagM (l : List α) : Mat α :=
  mkMat l.length l.length (fun i j => if i = j then l.getD i 0 else 0)

/-- The loss functional of `complete_matrix`:
`1/(2*sigma) * ||Z||_F + sum((a+1) * log(b + s))` with `s` the singular
values of `Z`. -/
def lossF (O : NumOracle α) (a b sigma : α) (Z : Mat α) : α :=
  let s := (O.svd Z).2.1
  1 / (2 * sigma) * O.fro Z + (s.map (fun si => (a + 1) * O.log (b + si))).sum

/-- One iteration of the `complete_matrix` loop: E-step weights
`omega = (a+1)/(b+d_Z)`, M-step `Z = U_X.dot(D_omega.dot(V_X))` with the
negative entries of `diag(d_X - omega)` clipped to zero, then the new loss
and the convergence ratio `|loss_old - loss_current| / loss_old`.  Returns
`(Z_new, loss_current, conv)`. -/
def cmStep (O : NumOracle α) (a b sigma : α) (U_X V_X : Mat α) (d_X : List α)
    (Z : Mat α) (loss_old : α) : Mat α × α × α :=
  let d_Z := (O.svd Z).2.1
  let omega := d_Z.map (fun s => (a + 1) / (b + s))
  let D_omega := diagM (List.zipWith (fun dx w => dx - w) d_X omega)
  let D_clip := D_omega.map (List.map (fun x => if x < 0 then 0 else x))
  let Znew := matMul U_X (matMul D_clip V_X)
  let loss_current := lossF O a b sigma Znew
  let conv := |loss_old - loss_current| / loss_old
  (Znew, loss_current, conv)

/-- The `for iter in range(max_iter)` loop of `complete_matrix`, with fuel
equal to the remaining iteration budget.  The result carries, besides the
final `Z`, two instrumentation fields: whether some executed convergence-ratio
division `|loss_old - loss_current| / loss_old` had a zero denominator (the
source performs this division with no guard), and the number of loop-body
executions. -/
def cmLoop (O : NumOracle α) (a b sigma tol : α) (U_X V_X : Mat α) (d_X : List α) :
    ℕ → Mat α → α → Mat α × Bool × ℕ
  | 0, Z, _ => (Z, false, 0)
  | fuel + 1, Z, loss_old =>
    let step := cmStep O a b sigma U_X V_X d_X Z loss_old
    if step.2.1 = 0 ∨ step.2.2 < tol then
      (step.1, decide (loss_old = 0), 1)
    else
      let rest := cmLoop O a b sigma tol U_X V_X d_X fuel step.1 step.2.1
      (rest.1, decide (loss_old = 0) || rest.2.1, rest.2.2 + 1)

/-- The seeding of `complete_matrix`: the supplied `Z` if any, otherwise
`low_rank_approx(X, int(max(1, X.shape[0]*0.1)))`. -/
def completeMatrixSeed (O : NumOracle α) (X : Mat α) (Z0 : Option (Mat α)) :
    Option (Mat α) :=
  match Z0 with
  | some Z => some Z
  | none => low_rank_approx O.svdEcon X (seedRank X.length)

/-- Source `complete_matrix(X, lam, beta, sigma, Z, max_iter, tol)`: seed,
fixed full SVD of `X`, shrinkage parameters
`lam = lam * max(d_X) * 0.999999999999`, `a = lam * beta`, `b = beta`,
initial loss, then the iteration loop.  The result keeps the loop
instrumentation (zero-denominator flag and iteration count). -/
def complete_matrix (O : NumOracle α) (X : Mat α) (lam beta sigma : α)
    (Z0 : Option (Mat α)) (max_iter : ℕ) (tol : α) : Option (Mat α × Bool × ℕ) :=
  match completeMatrixSeed O X Z0 with
  | none => none
  | some Z =>
    let t := O.svd X
    let U_X := t.1
    let d_X := t.2.1
    let V_X := t.2.2
    let lam2 := lam * npMax d_X * ((999999999999 : α) / 1000000000000)
    let a := lam2 * beta
    let b := beta
    let loss_old := lossF O a b sigma Z
    some (cmLoop O a b sigma tol U_X V_X d_X max_iter Z loss_old)

end Completion

section ConcreteInstances

/-- An oracle whose primitives all return empty or zero values; used to
instantiate the abstract theorems at concrete inputs. -/
def zeroOracle : NumOracle ℚ where
  svd := fun _ => ([], [], [])
  svdEcon := fun _ => ([], [], [])
  fro := fun _ => 0
  log := fun _ => 0

/-- A stand-in economy SVD for the 1 × 2 input `[[1, 2]]`: the factor shapes
(`u` is `1 × 1`, `s` has one entry, `v` is `1 × 2`) are those of
`np.linalg.svd` in economy mode; the values are immaterial to the shape
failure being exhibited. -/
def svdEconWide : Mat ℚ → Mat ℚ × List ℚ × Mat ℚ :=
  fun _ => ([[1]], [1], [[1, 2]])

/-- The exact economy SVD of the 1 × 1 matrix `[[5]]`. -/
def svdEconOne : Mat ℚ → Mat ℚ × List ℚ × Mat ℚ :=
  fun _ => ([[1]], [5], [[1]])

/-- A 15 × 1 matrix of ones. -/
def tallX : Mat ℚ :=
  List.replicate 15 [1]

/-- The exact economy SVD of `tallX` would have `u` of shape 15 × 1, one
singular value and a 1 × 1 `v`; this oracle returns factors of exactly those
shapes. -/
def tallOracle : NumOracle ℚ where
  svd := fun _ => ([], [], [])
  svdEcon := fun _ => (List.replicate 15 [1], [1], [[1]])
  fro := fun _ => 0
  log := fun _ => 0

instance : Fact (Nat.Prime 7) := ⟨by norm_num⟩

end ConcreteInstances

section ShapeLemmas

variable {α : Type} [Zero α]

theorem wf_length {X : Mat α} {m n : ℕ} (h : wf X m n) : X.length = m := h.1

theorem wf_row_length {X : Mat α} {m n : ℕ} (h : wf X m n) {i : ℕ} (hi : i < m) :
    (X.getD i []).length = n := by
  apply h.2
  have hx : i < X.length := by rw [h.1]; exact hi
  rw [List.getD_eq_getElem _ _ hx]
  exact List.getElem_mem hx

theorem entry_mkMat {m n : ℕ} (f : ℕ → ℕ → α) {i j : ℕ} (hi : i < m) (hj : j < n) :
    entry (mkMat m n f) i j = f i j := by
  have h1 : (mkMat m n f).getD i [] = (List.range n).map (fun j => f i j) := by
    rw [List.getD_eq_getElem _ _ (show i < (mkMat m n f).length by simp [mkMat, hi])]
    simp [mkMat]
  rw [entry, h1, List.getD_eq_getElem _ _ (by simpa using hj)]
  simp

theorem wf_mkMat (m n : ℕ) (f : ℕ → ℕ → α) : wf (mkMat m n f) m n := by
  constructor
  · simp [mkMat]
  · intro row hrow
    simp only [mkMat, List.mem_map] at hrow
    obtain ⟨i, _, hrow⟩ := hrow
    simp [← hrow]

/-- Two well-formed `m × n` matrices with the same entries are equal. -/
theorem mat_ext {X Y : Mat α} {m n : ℕ} (hX : wf X m n) (hY : wf Y m n)
    (h : ∀ i j, i < m → j < n → entry X i j = entry Y i j) : X = Y := by
  apply List.ext_getElem (by rw [hX.1, hY.1])
  intro i hi hi2
  have him : i < m := by rw [← hX.1]; exact hi
  apply List.ext_getElem
  · rw [hX.2 _ (List.getElem_mem hi), hY.2 _ (List.getElem_mem hi2)]
  intro j hj hj2
  have hjn : j < n := by
    rw [hX.2 _ (List.getElem_mem hi)] at hj
    exact hj
  have := h i j him hjn
  unfold entry at this
  rw [List.getD_eq_getElem _ _ hi, List.getD_eq_getElem _ _ hi2] at this
  rw [List.getD_eq_getElem _ _ hj, List.getD_eq_getElem _ _ hj2] at this
  exact this

theorem map_getD_range (l : List α) :
    (List.range l.length).map (fun j => l.getD j 0) = l := by
  apply List.ext_getElem (by simp)
  intro i h1 h2
  simp [List.getD_eq_getElem _ _ h2, List.getElem?_eq_getElem h2]

theorem headD_length {X : Mat α} {m n : ℕ} (h : wf X m n) (hm : 0 < m) :
    (X.headD []).length = n := by
  cases X with
  | nil =>
    exfalso
    have := h.1
    simp at this
    omega
  | cons row rest =>
    exact h.2 row (by simp)

theorem wf_transposeM {X : Mat α} {m n : ℕ} (h : wf X m n) (hm : 0 < m) :
    wf (transposeM X) n m := by
  constructor
  · show ((List.range (X.headD []).length).map _).length = n
    rw [List.length_map, List.length_range, headD_length h hm]
  · intro row hrow
    simp only [transposeM, List.mem_map] at hrow
    obtain ⟨j, _, hrow⟩ := hrow
    rw [← hrow]
    simp [h.1]

theorem entry_transposeM {X : Mat α} {m n i j : ℕ} (h : wf X m n) (hm : 0 < m)
    (hi : i < n) (hj : j < m) : entry (transposeM X) i j = entry X j i := by
  have hlen : (X.headD []).length = n := headD_length h hm
  have hiT : i < (transposeM X).length := by
    show i < ((List.range (X.headD []).length).map _).length
    rw [List.length_map, List.length_range, hlen]
    exact hi
  have h1 : (transposeM X).getD i [] = X.map (fun row => row.getD i 0) := by
    rw [List.getD_eq_getElem _ _ hiT]
    show ((List.range (X.headD []).length).map _)[i] = _
    rw [List.getElem_map, List.getElem_range]
  have hjx : j < X.length := by rw [h.1]; exact hj
  rw [entry, h1, List.getD_eq_getElem _ _ (by simp [hjx]), List.getElem_map]
  rw [entry, List.getD_eq_getElem _ _ hjx]

theorem transposeM_empty : transposeM ([] : Mat α) = [] := rfl

theorem transposeM_transposeM {X : Mat α} {d : ℕ} (h : wf X d d) :
    transposeM (transposeM X) = X := by
  rcases Nat.eq_zero_or_pos d with hd | hd
  · subst hd
    have : X = [] := List.length_eq_zero.mp h.1
    subst this
    rfl
  · have hT := wf_transposeM h hd
    apply mat_ext (wf_transposeM hT hd) h
    intro i j hi hj
    rw [entry_transposeM hT hd hi hj, entry_transposeM h hd hj hi]

theorem flatten_length_wf {X : Mat α} {m n : ℕ} (h : wf X m n) :
    X.flatten.length = m * n := by
  rw [List.length_flatten]
  have hrep : X.map List.length = List.replicate m n := by
    apply List.eq_replicate_iff.mpr
    refine ⟨by simp [h.1], ?_⟩
    intro b hb
    simp only [List.mem_map] at hb
    obtain ⟨row, hrow, hb⟩ := hb
    rw [← hb]
    exact h.2 row hrow
  rw [hrep, List.sum_const_nat]

theorem reshapeRows_flatten :
    ∀ (X : Mat α) (n : ℕ), (∀ row ∈ X, row.length = n) →
      reshapeRows X.length n X.flatten = X := by
  intro X
  induction X with
  | nil => intro n _; rfl
  | cons row rest ih =>
    intro n h
    have hr : row.length = n := h row (by simp)
    show reshapeRows (rest.length + 1) n (row :: rest).flatten = row :: rest
    rw [List.flatten_cons, reshapeRows]
    congr 1
    · rw [← hr]
      rw [List.map_congr_left
        (fun j hj => List.getD_append row rest.flatten 0 j (List.mem_range.mp hj))]
      exact map_getD_range row
    · rw [List.drop_left' hr]
      exact ih n (fun r hr2 => h r (by simp [hr2]))

theorem reshapeRows_flatten' {X : Mat α} {m n : ℕ} (hm : X.length = m)
    (h : ∀ row ∈ X, row.length = n) : reshapeRows m n X.flatten = X := by
  subst hm
  exact reshapeRows_flatten X n h

theorem sum_map_list_range {β : Type} [AddCommMonoid β] (f : ℕ → β) :
    ∀ n, ((List.range n).map f).sum = ∑ i ∈ Finset.range n, f i := by
  intro n
  induction n with
  | zero => simp
  | succ n ih =>
    rw [List.range_succ, List.map_append, List.sum_append, Finset.sum_range_succ, ih]
    simp

end ShapeLemmas

section VecClaims

variable {α : Type} [Zero α]

theorem vec_false (X : Mat α) : vec X false = X.flatten := rfl

theorem vec_true (X : Mat α) : vec X true = (transposeM X).flatten := rfl

theorem unvec_false (v : List α) :
    unvec v false = reshapeRows (Nat.sqrt v.length) (Nat.sqrt v.length) v := rfl

theorem unvec_true (v : List α) :
    unvec v true =
      transposeM (reshapeRows (Nat.sqrt v.length) (Nat.sqrt v.length) v) := rfl

/-- C5 (amended): for every SQUARE `d × d` matrix `X` and every stacking flag,
`unvec(vec(X, s), s)` equals `X` exactly; the round trip is a pure reshape
with no arithmetic.  (As stated over all matrices the claim fails: `unvec`
always rebuilds a square `isqrt(len) × isqrt(len)` matrix, so a non-square
input does not come back.) -/
theorem unvec_vec_roundtrip (d : ℕ) (X : Mat α) (s : Bool)
    (h : wf X d d) : unvec (vec X s) s = X := by
  rcases Nat.eq_zero_or_pos d with hd | hd
  · subst hd
    have hX : X = [] := List.length_eq_zero.mp h.1
    subst hX
    cases s <;> rfl
  · cases s
    · have hlen : (vec X false).length = d * d := flatten_length_wf h
      rw [unvec_false, hlen, Nat.sqrt_eq, vec_false]
      exact reshapeRows_flatten' h.1 h.2
    · have hT : wf (transposeM X) d d := wf_transposeM h hd
      have hlen : (vec X true).length = d * d := flatten_length_wf hT
      rw [unvec_true, hlen, Nat.sqrt_eq, vec_true,
        reshapeRows_flatten' hT.1 hT.2]
      exact transposeM_transposeM h

/-- C5 (counterexample): for the non-square `1 × 4` matrix `[[1, 2, 3, 4]]`
the round trip with matching flags does not return the input — `unvec`
rebuilds a `2 × 2` matrix. -/
theorem unvec_vec_not_id_nonsquare :
    unvec (vec ([[1, 2, 3, 4]] : Mat ℤ) true) true ≠ [[1, 2, 3, 4]] := by
  have h1 : vec ([[1, 2, 3, 4]] : Mat ℤ) true = [1, 2, 3, 4] := by decide
  have h2 : Nat.sqrt ([1, 2, 3, 4] : List ℤ).length = 2 := by
    show Nat.sqrt 4 = 2
    rw [show (4 : ℕ) = 2 * 2 from rfl, Nat.sqrt_eq]
  rw [h1, unvec_true, h2]
  decide

/-- C5 witness at a concrete input. -/
theorem unvec_vec_roundtrip_witness :
    wf ([[1, 2], [3, 4]] : Mat ℤ) 2 2 ∧
      unvec (vec ([[1, 2], [3, 4]] : Mat ℤ) true) true = [[1, 2], [3, 4]] :=
  ⟨by decide, unvec_vec_roundtrip 2 [[1, 2], [3, 4]] true (by decide)⟩

/-- C9: for every square `d × d` matrix, composing `vec` and `unvec` with
mismatched stacking flags yields the transpose, in both flag orders. -/
theorem unvec_vec_flag_mismatch (d : ℕ) (X : Mat α)
    (h : wf X d d) :
    unvec (vec X false) true = transposeM X ∧
      unvec (vec X true) false = transposeM X := by
  rcases Nat.eq_zero_or_pos d with hd | hd
  · subst hd
    have hX : X = [] := List.length_eq_zero.mp h.1
    subst hX
    exact ⟨rfl, rfl⟩
  · constructor
    · have hlen : (vec X false).length = d * d := flatten_length_wf h
      rw [unvec_true, hlen, Nat.sqrt_eq, vec_false,
        reshapeRows_flatten' h.1 h.2]
    · have hT : wf (transposeM X) d d := wf_transposeM h hd
      have hlen : (vec X true).length = d * d := flatten_length_wf hT
      rw [unvec_false, hlen, Nat.sqrt_eq, vec_true,
        reshapeRows_flatten' hT.1 hT.2]

/-- C9 witness at a concrete input. -/
theorem unvec_vec_flag_mismatch_witness :
    wf ([[1, 2], [3, 4]] : Mat ℤ) 2 2 ∧
      (unvec (vec ([[1, 2], [3, 4]] : Mat ℤ) false) true =
          transposeM [[1, 2], [3, 4]] ∧
        unvec (vec ([[1, 2], [3, 4]] : Mat ℤ) true) false =
          transposeM [[1, 2], [3, 4]]) :=
  ⟨by decide, unvec_vec_flag_mismatch 2 [[1, 2], [3, 4]] (by decide)⟩

end VecClaims

section TriuLemmas

variable {α : Type} [Field α]

theorem triuIdx_true (d : ℕ) :
    triuIdx d true =
      ((List.range d).map (fun c => (List.range (c + 1)).map (fun r => (r, c)))).flatten :=
  rfl

theorem triuIdx_false (d : ℕ) :
    triuIdx d false =
      ((List.range d).map
        (fun r => (List.range' r (d - r)).map (fun c => (r, c)))).flatten :=
  rfl

theorem triuIdx_mem {d : ℕ} {f : Bool} {r c : ℕ} :
    (r, c) ∈ triuIdx d f ↔ r ≤ c ∧ c < d := by
  cases f
  · rw [triuIdx_false]
    simp only [List.mem_flatten, List.mem_map]
    constructor
    · rintro ⟨l, ⟨a, ha, rfl⟩, hmem⟩
      simp only [List.mem_map, List.mem_range'] at hmem
      obtain ⟨cc, ⟨i, hi, hcc⟩, heq⟩ := hmem
      cases heq
      omega
    · rintro ⟨hrc, hc⟩
      refine ⟨(List.range' r (d - r)).map (fun c => (r, c)),
        ⟨r, List.mem_range.mpr (by omega), rfl⟩, ?_⟩
      simp only [List.mem_map, List.mem_range']
      exact ⟨c, ⟨c - r, by omega, by omega⟩, rfl⟩
  · rw [triuIdx_true]
    simp only [List.mem_flatten, List.mem_map]
    constructor
    · rintro ⟨l, ⟨a, ha, rfl⟩, hmem⟩
      simp only [List.mem_map, List.mem_range] at hmem
      obtain ⟨rr, hrr, heq⟩ := hmem
      cases heq
      have := List.mem_range.mp ha
      omega
    · rintro ⟨hrc, hc⟩
      refine ⟨(List.range (c + 1)).map (fun r => (r, c)),
        ⟨c, List.mem_range.mpr hc, rfl⟩, ?_⟩
      simp only [List.mem_map, List.mem_range]
      exact ⟨r, by omega, rfl⟩

theorem sum_range_add_one : ∀ d : ℕ, (∑ r ∈ Finset.range d, (r + 1)) = d * (d + 1) / 2 := by
  intro d
  induction d with
  | zero => simp
  | succ d ih =>
    rw [Finset.sum_range_succ, ih]
    have e3 : (d + 1) * (d + 2) = d * (d + 1) + 2 * (d + 1) := by ring
    obtain ⟨k, hk⟩ := Nat.even_mul_succ_self d
    rw [show d + 1 + 1 = d + 2 from rfl, e3, hk]
    omega

theorem triuIdx_length (d : ℕ) (f : Bool) :
    (triuIdx d f).length = d * (d + 1) / 2 := by
  cases f
  · rw [triuIdx_false, List.length_flatten, List.map_map]
    have hcongr :
        (List.range d).map
            (List.length ∘ fun r => (List.range' r (d - r)).map (fun c => (r, c))) =
          (List.range d).map (fun r => d - r) := by
      apply List.map_congr_left
      intro a _
      simp
    rw [hcongr, sum_map_list_range]
    have h1 : (∑ r ∈ Finset.range d, (d - r)) = ∑ r ∈ Finset.range d, (r + 1) := by
      rw [← Finset.sum_range_reflect]
      apply Finset.sum_congr rfl
      intro i hi
      have := Finset.mem_range.mp hi
      omega
    rw [h1, sum_range_add_one]
  · rw [triuIdx_true, List.length_flatten, List.map_map]
    have hcongr :
        (List.range d).map
            (List.length ∘ fun c => (List.range (c + 1)).map (fun r => (r, c))) =
          (List.range d).map (fun c => c + 1) := by
      apply List.map_congr_left
      intro a _
      simp
    rw [hcongr, sum_map_list_range, sum_range_add_one]

theorem dim_recover (d : ℕ) : (Nat.sqrt (8 * (d * (d + 1) / 2) + 1) - 1) / 2 = d := by
  obtain ⟨k, hk⟩ := Nat.even_mul_succ_self d
  have h2 : d * (d + 1) / 2 = k := by rw [hk]; omega
  rw [h2]
  have h3 : 8 * k + 1 = (2 * d + 1) * (2 * d + 1) := by
    have h5 : 8 * k + 1 = 4 * (k + k) + 1 := by omega
    rw [h5, ← hk]
    ring
  rw [h3, Nat.sqrt_eq]
  omega

theorem vech_eq_map (X : Mat α) (f cn : Bool) (s : α) :
    vech X f cn s =
      (triuIdx X.length f).map (fun p =>
        if cn then
          (if p.1 < p.2 then s * entry X p.1 p.2 else entry X p.1 p.2)
        else entry X p.1 p.2) :=
  rfl

theorem indexOf_lt_length_of_mem {β : Type} [BEq β] [LawfulBEq β] {a : β}
    {l : List β} (h : a ∈ l) : l.indexOf a < l.length := by
  unfold List.indexOf
  exact List.findIdx_lt_length_of_exists ⟨a, h, by simp⟩

theorem getElem_indexOf_of_mem {β : Type} [BEq β] [LawfulBEq β] {a : β}
    {l : List β} (h : l.indexOf a < l.length) : l[l.indexOf a] = a := by
  apply eq_of_beq
  exact @List.findIdx_getElem β (fun x => x == a) l h

theorem vech_getD {X : Mat α} {d : ℕ} (hX : X.length = d) (f cn : Bool) (s : α)
    {r c : ℕ} (hrc : r ≤ c) (hc : c < d) :
    (vech X f cn s).getD ((triuIdx d f).indexOf (r, c)) 0 =
      if cn then (if r < c then s * entry X r c else entry X r c)
      else entry X r c := by
  have hmem : (r, c) ∈ triuIdx d f := triuIdx_mem.mpr ⟨hrc, hc⟩
  have hlt : (triuIdx d f).indexOf (r, c) < (triuIdx d f).length :=
    indexOf_lt_length_of_mem hmem
  rw [vech_eq_map, hX]
  rw [List.getD_eq_getElem _ _ (by rw [List.length_map]; exact hlt)]
  rw [List.getElem_map, getElem_indexOf_of_mem hlt]

theorem wf_unvechAt (v : List α) (d : ℕ) (cs nc : Bool) (s : α) :
    wf (unvechAt v d cs nc s) d d := by
  unfold unvechAt
  exact wf_mkMat d d _

theorem entry_unvechAt_diag (v : List α) (d : ℕ) (cs nc : Bool) (s : α)
    {r : ℕ} (hr : r < d) :
    entry (unvechAt v d cs nc s) r r = v.getD ((triuIdx d cs).indexOf (r, r)) 0 := by
  unfold unvechAt
  rw [entry_mkMat _ hr hr]
  cases nc <;> simp

theorem entry_unvechAt_upper (v : List α) (d : ℕ) (cs nc : Bool) (s : α)
    {r c : ℕ} (hrc : r < c) (hc : c < d) :
    entry (unvechAt v d cs nc s) r c =
      if nc then v.getD ((triuIdx d cs).indexOf (r, c)) 0 / s
      else v.getD ((triuIdx d cs).indexOf (r, c)) 0 := by
  unfold unvechAt
  rw [entry_mkMat _ (lt_trans hrc hc) hc]
  have h1 : ¬ c ≤ r := by omega
  have h2 : ¬ r = c := by omega
  cases nc <;> simp [h1, h2]

theorem entry_unvechAt_lower (v : List α) (d : ℕ) (cs nc : Bool) (s : α)
    {r c : ℕ} (hcr : c < r) (hr : r < d) :
    entry (unvechAt v d cs nc s) r c =
      if nc then v.getD ((triuIdx d cs).indexOf (c, r)) 0 / s
      else v.getD ((triuIdx d cs).indexOf (c, r)) 0 := by
  unfold unvechAt
  rw [entry_mkMat _ hr (lt_trans hcr hr)]
  have h1 : c ≤ r := by omega
  have h2 : ¬ r = c := by omega
  cases nc <;> simp [h1, h2]

end TriuLemmas

section VechClaims

variable {α : Type} [Field α]

/-- C1: for every symmetric `d × d` matrix `X`, every ordering flag `f` and
every scaling flag `c` used consistently on both calls, and every nonzero
scaling factor standing for `sqrt(2)`,
`unvech(vech(X, f, c), f, c)` equals `X` exactly.  (Over the rationals the
round trip is exact, which subsumes the floating-point-tolerance phrasing of
the claim.) -/
theorem vech_unvech_roundtrip (d : ℕ) (X : Mat α) (f cn : Bool) (s : α)
    (hwf : wf X d d)
    (hsym : ∀ i j, i < d → j < d → entry X i j = entry X j i)
    (hs : s ≠ 0) : unvech (vech X f cn s) f cn s = X := by
  have hlen : (vech X f cn s).length = d * (d + 1) / 2 := by
    rw [vech_eq_map, hwf.1, List.length_map, triuIdx_length]
  have hdim : (Nat.sqrt (8 * (vech X f cn s).length + 1) - 1) / 2 = d := by
    rw [hlen]
    exact dim_recover d
  show unvechAt (vech X f cn s) ((Nat.sqrt (8 * (vech X f cn s).length + 1) - 1) / 2)
    f cn s = X
  rw [hdim]
  apply mat_ext (wf_unvechAt _ d f cn s) hwf
  intro i j hi hj
  rcases lt_trichotomy i j with h | h | h
  · rw [entry_unvechAt_upper _ d f cn s h hj,
      vech_getD hwf.1 f cn s (le_of_lt h) hj]
    cases cn
    · simp
    · simp only [ite_true, if_pos h]
      exact mul_div_cancel_left₀ _ hs
  · subst h
    rw [entry_unvechAt_diag _ d f cn s hi, vech_getD hwf.1 f cn s le_rfl hj]
    cases cn <;> simp
  · rw [entry_unvechAt_lower _ d f cn s h hi,
      vech_getD hwf.1 f cn s (le_of_lt h) hi]
    cases cn
    · simpa using hsym j i hj hi
    · simp only [ite_true, if_pos h]
      rw [mul_div_cancel_left₀ _ hs]
      exact hsym j i hj hi

/-- C1 witness at the concrete symmetric matrix `[[4, 1], [1, 3]]` over ℚ. -/
theorem vech_unvech_roundtrip_witness :
    (wf ([[4, 1], [1, 3]] : Mat ℚ) 2 2 ∧
        (∀ i j, i < 2 → j < 2 →
          entry ([[4, 1], [1, 3]] : Mat ℚ) i j =
            entry ([[4, 1], [1, 3]] : Mat ℚ) j i) ∧
        (2 : ℚ) ≠ 0) ∧
      unvech (vech ([[4, 1], [1, 3]] : Mat ℚ) true true 2) true true 2 =
        [[4, 1], [1, 3]] :=
  ⟨⟨by decide,
    fun i j hi hj => by interval_cases i <;> interval_cases j <;> rfl,
    by norm_num⟩,
   vech_unvech_roundtrip 2 [[4, 1], [1, 3]] true true 2 (by decide)
     (fun i j hi hj => by interval_cases i <;> interval_cases j <;> rfl)
     (by norm_num)⟩

end VechClaims

section NormClaims

variable {α : Type} [Field α]

theorem sum_map_eq_sum_getD {β γ : Type} [AddCommMonoid γ] (l : List β)
    (g : β → γ) (x : β) :
    (l.map g).sum = ∑ i ∈ Finset.range l.length, g (l.getD i x) := by
  induction l with
  | nil => simp
  | cons a t ih =>
    rw [List.map_cons, List.sum_cons, List.length_cons, Finset.sum_range_succ']
    simp only [List.getD_cons_succ, List.getD_cons_zero]
    rw [← ih]
    exact add_comm _ _

theorem sum_over_triuTrue (g : ℕ → ℕ → α) (d : ℕ) :
    ((triuIdx d true).map (fun p => g p.1 p.2)).sum =
      ∑ c ∈ Finset.range d, ∑ r ∈ Finset.range (c + 1), g r c := by
  rw [triuIdx_true, List.map_flatten, List.sum_flatten, List.map_map, List.map_map]
  rw [sum_map_list_range]
  apply Finset.sum_congr rfl
  intro c _
  simp only [Function.comp]
  rw [List.map_map, sum_map_list_range]
  apply Finset.sum_congr rfl
  intro r _
  rfl

theorem frobSq_eq {X : Mat α} {d : ℕ} (hwf : wf X d d) :
    frobSqM X = ∑ r ∈ Finset.range d, ∑ c ∈ Finset.range d,
      entry X r c * entry X r c := by
  rw [frobSqM, sum_map_eq_sum_getD X _ [], hwf.1]
  apply Finset.sum_congr rfl
  intro i hi
  rw [sum_map_eq_sum_getD (X.getD i []) _ 0,
    wf_row_length hwf (Finset.mem_range.mp hi)]
  rfl

theorem entry_symm_global {X : Mat α} {d : ℕ} (hwf : wf X d d)
    (hsym : ∀ i j, i < d → j < d → entry X i j = entry X j i) :
    ∀ i j, entry X i j = entry X j i := by
  have oob_left : ∀ i j, d ≤ i → entry X i j = 0 := by
    intro i j hi
    have hrow : X.getD i [] = [] :=
      List.getD_eq_default _ _ (by rw [hwf.1]; exact hi)
    rw [entry, hrow]
    rfl
  have oob_right : ∀ i j, d ≤ j → entry X i j = 0 := by
    intro i j hj
    by_cases hi : i < d
    · rw [entry,
        List.getD_eq_default _ _ (by rw [wf_row_length hwf hi]; exact hj)]
    · exact oob_left i j (by omega)
  intro i j
  by_cases hi : i < d
  · by_cases hj : j < d
    · exact hsym i j hi hj
    · rw [oob_right i j (by omega), oob_left j i (by omega)]
  · rw [oob_left i j (by omega), oob_right j i (by omega)]

theorem triangle_sum (q : ℕ → ℕ → α) (hq : ∀ i j, q i j = q j i) (d : ℕ) :
    (∑ c ∈ Finset.range d, ((∑ r ∈ Finset.range c, 2 * q r c) + q c c)) =
      ∑ r ∈ Finset.range d, ∑ c ∈ Finset.range d, q r c := by
  induction d with
  | zero => simp
  | succ d ih =>
    rw [Finset.sum_range_succ, ih]
    conv_rhs =>
      rw [Finset.sum_range_succ]
    rw [Finset.sum_congr rfl
      (fun r _ => Finset.sum_range_succ (fun c => q r c) d)]
    rw [Finset.sum_add_distrib, Finset.sum_range_succ]
    rw [Finset.sum_congr rfl (fun c _ => hq d c)]
    rw [Finset.sum_congr rfl (fun r _ => two_mul (q r d)), Finset.sum_add_distrib]
    ring

/-- C6: for every symmetric `d × d` matrix `X` and any scaling factor `s`
with `s * s = 2` (the defining property of `sqrt(2)`), the sum of squared
entries of `vech(X, stack_cols, conserve_norm=True)` equals the sum of
squared entries of `X`; squaring both sides of the claimed identity
`‖vech(X)‖₂ = ‖X‖_F` of nonnegative reals gives exactly this equation. -/
theorem vech_conserves_frobenius_sq (d : ℕ) (X : Mat α) (s : α)
    (hwf : wf X d d)
    (hsym : ∀ i j, i < d → j < d → entry X i j = entry X j i)
    (hs : s * s = 2) :
    sqNormList (vech X true true s) = frobSqM X := by
  have hsq : sqNormList (vech X true true s) =
      ∑ c ∈ Finset.range d, ∑ r ∈ Finset.range (c + 1),
        (if r < c then s * entry X r c else entry X r c) *
          (if r < c then s * entry X r c else entry X r c) := by
    rw [sqNormList, vech_eq_map, hwf.1, List.map_map]
    exact sum_over_triuTrue
      (fun r c => (if r < c then s * entry X r c else entry X r c) *
        (if r < c then s * entry X r c else entry X r c)) d
  rw [hsq, frobSq_eq hwf,
    ← triangle_sum (fun i j => entry X i j * entry X i j)
      (fun i j => by
        show entry X i j * entry X i j = entry X j i * entry X j i
        rw [entry_symm_global hwf hsym i j]) d]
  apply Finset.sum_congr rfl
  intro c _
  rw [Finset.sum_range_succ]
  congr 1
  · apply Finset.sum_congr rfl
    intro r hr
    have hrc : r < c := Finset.mem_range.mp hr
    rw [if_pos hrc]
    calc (s * entry X r c) * (s * entry X r c)
        = s * s * (entry X r c * entry X r c) := by ring
      _ = 2 * (entry X r c * entry X r c) := by rw [hs]
  · rw [if_neg (lt_irrefl c)]

/-- C6 witness over the field `ZMod 7`, in which `3 * 3 = 2`. -/
theorem vech_conserves_frobenius_sq_witness :
    (wf ([[4, 1], [1, 3]] : Mat (ZMod 7)) 2 2 ∧
        (∀ i j, i < 2 → j < 2 →
          entry ([[4, 1], [1, 3]] : Mat (ZMod 7)) i j =
            entry ([[4, 1], [1, 3]] : Mat (ZMod 7)) j i) ∧
        (3 : ZMod 7) * 3 = 2) ∧
      sqNormList (vech ([[4, 1], [1, 3]] : Mat (ZMod 7)) true true 3) =
        frobSqM [[4, 1], [1, 3]] :=
  ⟨⟨by decide,
    fun i j hi hj => by interval_cases i <;> interval_cases j <;> rfl,
    by decide⟩,
   vech_conserves_frobenius_sq 2 [[4, 1], [1, 3]] 3 (by decide)
     (fun i j hi hj => by interval_cases i <;> interval_cases j <;> rfl)
     (by decide)⟩

end NormClaims

section LowRankLemmas

variable {α : Type} [CommRing α]

theorem map_length_eq_replicate {A : Mat α} {m n : ℕ} (h : wf A m n) :
    A.map List.length = List.replicate m n := by
  apply List.eq_replicate_iff.mpr
  refine ⟨by simp [h.1], ?_⟩
  intro b hb
  simp only [List.mem_map] at hb
  obtain ⟨row, hrow, hb⟩ := hb
  rw [← hb]
  exact h.2 row hrow

theorem wf_outerM {ui vi : List α} {m n : ℕ} (hu : ui.length = m)
    (hv : vi.length = n) : wf (outerM ui vi) m n := by
  constructor
  · simp [outerM, hu]
  · intro row hrow
    simp only [outerM, List.mem_map] at hrow
    obtain ⟨x, _, hrow⟩ := hrow
    rw [← hrow]
    simp [hv]

theorem wf_smulM {M : Mat α} {m n : ℕ} (c : α) (h : wf M m n) :
    wf (smulM c M) m n := by
  constructor
  · simp [smulM, h.1]
  · intro row hrow
    simp only [smulM, List.mem_map] at hrow
    obtain ⟨x, hx, hrow⟩ := hrow
    rw [← hrow]
    simp [h.2 x hx]

theorem matAddChecked_some {A B : Mat α} {m n : ℕ} (hA : wf A m n)
    (hB : wf B m n) :
    ∃ C, matAddChecked A B = some C ∧ wf C m n := by
  refine ⟨List.zipWith (List.zipWith (fun x y => x + y)) A B, ?_, ?_, ?_⟩
  · rw [matAddChecked,
      if_pos (by rw [map_length_eq_replicate hA, map_length_eq_replicate hB])]
  · rw [List.length_zipWith, hA.1, hB.1, min_self]
  · intro row hrow
    obtain ⟨i, hi, hrow⟩ := List.mem_iff_getElem.mp hrow
    rw [← hrow, List.getElem_zipWith, List.length_zipWith]
    have hiA : i < A.length := by
      rw [List.length_zipWith] at hi
      omega
    have hiB : i < B.length := by
      rw [List.length_zipWith] at hi
      omega
    rw [hA.2 _ (List.getElem_mem hiA), hB.2 _ (List.getElem_mem hiB), min_self]

theorem lraStep_some {u : Mat α} {s : List α} {v : Mat α} {m k n : ℕ}
    (hu : wf u m k) (hs : s.length = k) (hv : wf v k n) (hm : 0 < m)
    {Z : Mat α} (hZ : wf Z m n) {i : ℕ} (hi : i < k) :
    ∃ Z2, lraStep u s v Z i = some Z2 ∧ wf Z2 m n := by
  have hTu : wf (transposeM u) k m := wf_transposeM hu hm
  have hui : (transposeM u).get? i = some ((transposeM u).getD i []) := by
    rw [List.get?_eq_getElem?,
      List.getElem?_eq_getElem (show i < (transposeM u).length by rw [hTu.1]; exact hi)]
    rw [List.getD_eq_getElem _ _ (show i < (transposeM u).length by rw [hTu.1]; exact hi)]
  have hsi : s.get? i = some (s.getD i 0) := by
    rw [List.get?_eq_getElem?, List.getElem?_eq_getElem (show i < s.length by omega)]
    rw [List.getD_eq_getElem _ _ (show i < s.length by omega)]
  have hvi : v.get? i = some (v.getD i []) := by
    rw [List.get?_eq_getElem?,
      List.getElem?_eq_getElem (show i < v.length by rw [hv.1]; exact hi)]
    rw [List.getD_eq_getElem _ _ (show i < v.length by rw [hv.1]; exact hi)]
  have huiL : ((transposeM u).getD i []).length = m :=
    wf_row_length hTu hi
  have hviL : (v.getD i []).length = n :=
    wf_row_length hv hi
  have hterm : wf (smulM (s.getD i 0) (outerM ((transposeM u).getD i []) (v.getD i []))) m n :=
    wf_smulM _ (wf_outerM huiL hviL)
  obtain ⟨C, hC, hCwf⟩ := matAddChecked_some hZ hterm
  refine ⟨C, ?_, hCwf⟩
  rw [lraStep, hui, hsi, hvi]
  simpa using hC

theorem lra_fold_some {u : Mat α} {s : List α} {v : Mat α} {m k n : ℕ}
    (hu : wf u m k) (hs : s.length = k) (hv : wf v k n) (hm : 0 < m) :
    ∀ (l : List ℕ), (∀ i ∈ l, i < k) → ∀ Z, wf Z m n →
      ∃ Z2, l.foldlM (lraStep u s v) Z = some Z2 ∧ wf Z2 m n := by
  intro l
  induction l with
  | nil => exact fun _ Z hZ => ⟨Z, rfl, hZ⟩
  | cons i t ih =>
    intro hmem Z hZ
    obtain ⟨Z2, hZ2, hZ2wf⟩ := lraStep_some hu hs hv hm hZ (hmem i (by simp))
    rw [List.foldlM_cons, hZ2]
    exact ih (fun j hj => hmem j (by simp [hj])) Z2 hZ2wf

end LowRankLemmas

section LowRankClaims

/-- C8 (amended): `low_rank_approx` performs no argument validation.
For `r = 0` (below the claimed valid range) it does NOT signal an error: the
loop body never runs and the all-zeros `len(u) × len(v)` matrix is returned
normally.  For `r` above `min(m, n)`, with economy-shaped SVD factors
(`u` of shape `m × n`, `n` singular values, `v` of shape `n × n`, the shapes
`np.linalg.svd(..., full_matrices=False)` yields for `m ≥ n`), the loop fails
at `i = min(m, n)` with an unchecked out-of-range indexing error — not an
invalid-argument signal. -/
theorem low_rank_approx_no_validation {α : Type} [CommRing α] :
    (∀ (svdE : Mat α → Mat α × List α × Mat α) (X : Mat α),
        low_rank_approx svdE X 0 =
          some (zerosM (svdE X).1.length (svdE X).2.2.length)) ∧
      (∀ (svdE : Mat α → Mat α × List α × Mat α) (X u : Mat α) (s : List α)
          (v : Mat α) (m n r : ℕ), svdE X = (u, s, v) →
        wf u m n → s.length = n → wf v n n → 0 < m → 0 < n → n < r →
        low_rank_approx svdE X r = none) := by
  constructor
  · intro svdE X
    rfl
  · intro svdE X u s v m n r hsvd hu hs hv hm hn hr
    unfold low_rank_approx
    rw [hsvd]
    show (List.range r).foldlM (lraStep u s v) (zerosM u.length v.length) = none
    have hZ0 : wf (zerosM u.length v.length : Mat α) m n := by
      rw [hu.1, hv.1]
      exact wf_mkMat m n _
    rw [show r = n + (r - n) by omega, List.range_add, List.foldlM_append]
    obtain ⟨Z2, hZ2, hZ2wf⟩ :=
      lra_fold_some hu hs hv hm (List.range n)
        (fun i hi => List.mem_range.mp hi) _ hZ0
    rw [hZ2]
    show ((List.range (r - n)).map (n + ·)).foldlM (lraStep u s v) Z2 = none
    rw [← List.range'_eq_map_range]
    obtain ⟨t, ht⟩ : ∃ t, r - n = t + 1 := ⟨r - n - 1, by omega⟩
    rw [ht, List.range'_succ, List.foldlM_cons]
    have hfail : lraStep u s v Z2 n = none := by
      have hTu : wf (transposeM u) n m := wf_transposeM hu hm
      rw [lraStep, List.get?_eq_none.mpr (by rw [hTu.1])]
      rfl
    rw [hfail]
    rfl

/-- C8 witness: with the exact economy SVD of the `1 × 1` matrix `[[5]]`,
`r = 0` silently returns the `1 × 1` zero matrix, while `r = 2` (above
`min(m, n) = 1`) fails. -/
theorem low_rank_approx_no_validation_witness :
    low_rank_approx svdEconOne [[(5 : ℚ)]] 0 = some [[0]] ∧
      low_rank_approx svdEconOne [[(5 : ℚ)]] 2 = none := by
  constructor
  · rw [(@low_rank_approx_no_validation ℚ _).1 svdEconOne [[(5 : ℚ)]]]
    rfl
  · exact (@low_rank_approx_no_validation ℚ _).2 svdEconOne [[(5 : ℚ)]]
      [[1]] [5] [[1]] 1 1 2 rfl (by decide) rfl (by decide)
      Nat.one_pos Nat.one_pos (by omega)

/-- C8 (counterexample): `low_rank_approx(X, 0)` returns a matrix (the zero
matrix) rather than signalling an invalid-argument error, refuting the claim
that every `r` outside `1 ≤ r ≤ min(m, n)` is rejected. -/
theorem low_rank_approx_rank_zero_no_error :
    low_rank_approx svdEconOne [[(5 : ℚ)]] 0 = some [[0]] := rfl

/-- C2: on the wide (`m < n`) input `[[1, 2]]` the code does not return an
`m × n` matrix at all: `Z` is allocated as `np.zeros((len(u), len(v)))`,
where `len(v)` is the ROW count `min(m, n)` of the economy `v` factor, so
`Z` is `1 × 1` while the added outer-product term is `1 × 2`, and the
in-place addition fails (a broadcast `ValueError`).  The embedding evaluates
to the error value on the failing input. -/
theorem low_rank_approx_wide_shape_error :
    low_rank_approx svdEconWide [[(1 : ℚ), 2]] 1 = none := by
  rfl

end LowRankClaims

section CompletionLemmas

variable {α : Type} [LinearOrderedField α]

theorem seedRank_eq (m : ℕ) : seedRank m = max 1 (m / 10) := by
  unfold seedRank
  have hq : (m : ℚ) * (1 / 10) = (m : ℚ) / 10 := by ring
  rw [hq]
  rcases lt_or_le m 10 with hm | hm
  · have h1 : (m : ℚ) / 10 < 1 := by
      rw [div_lt_one (by norm_num)]
      exact_mod_cast hm
    rw [max_eq_left h1.le]
    have h2 : m / 10 = 0 := Nat.div_eq_of_lt hm
    rw [h2]
    simp
  · have h1 : (1 : ℚ) ≤ (m : ℚ) / 10 := by
      rw [le_div_iff₀ (by norm_num)]
      simpa using (by exact_mod_cast hm : (10 : ℚ) ≤ (m : ℚ))
    rw [max_eq_right h1]
    have h2 : (⌊(m : ℚ) / (10 : ℕ)⌋₊ : ℕ) = m / 10 := by
      rw [Nat.floor_div_nat, Nat.floor_natCast]
    have h3 : 1 ≤ m / 10 := by omega
    rw [show ((10 : ℚ)) = ((10 : ℕ) : ℚ) by norm_num, h2]
    omega

theorem cmLoop_flag_of_zero (O : NumOracle α) (a b sigma tol : α)
    (U V : Mat α) (dX : List α) (fuel : ℕ) (Z : Mat α) :
    (cmLoop O a b sigma tol U V dX (fuel + 1) Z 0).2.1 = true := by
  show (if _ then _ else _ : Mat α × Bool × ℕ).2.1 = true
  split
  · simp
  · simp

theorem cmLoop_iters_le (O : NumOracle α) (a b sigma tol : α)
    (U V : Mat α) (dX : List α) :
    ∀ fuel (Z : Mat α) (l : α),
      (cmLoop O a b sigma tol U V dX fuel Z l).2.2 ≤ fuel := by
  intro fuel
  induction fuel with
  | zero => intro Z l; exact le_rfl
  | succ f ih =>
    intro Z l
    show (if _ then _ else _ : Mat α × Bool × ℕ).2.2 ≤ f + 1
    split
    · show 1 ≤ f + 1
      omega
    · show (cmLoop O a b sigma tol U V dX f (cmStep O a b sigma U V dX Z l).1
          (cmStep O a b sigma U V dX Z l).2.1).2.2 + 1 ≤ f + 1
      have := ih (cmStep O a b sigma U V dX Z l).1
        (cmStep O a b sigma U V dX Z l).2.1
      omega

theorem cmLoop_iters_pos (O : NumOracle α) (a b sigma tol : α)
    (U V : Mat α) (dX : List α) (fuel : ℕ) (Z : Mat α) (l : α) :
    1 ≤ (cmLoop O a b sigma tol U V dX (fuel + 1) Z l).2.2 := by
  show 1 ≤ (if _ then _ else _ : Mat α × Bool × ℕ).2.2
  split
  · exact le_rfl
  · show 1 ≤ (cmLoop O a b sigma tol U V dX fuel _ _).2.2 + 1
    omega

end CompletionLemmas

section CompletionClaims

/-- C3 (amended): with no initial estimate supplied, `complete_matrix` seeds
`Z := low_rank_approx(X, r)` with `r = int(max(1, 0.1 * m)) = max(1, ⌊0.1 * m⌋)`
— the FLOOR of a tenth of the row count, clamped to at least 1 (the source
truncates with `int(...)`, it does not round). -/
theorem complete_matrix_seed_rank {α : Type} [LinearOrderedField α]
    (O : NumOracle α) (X : Mat α) :
    completeMatrixSeed O X none =
      low_rank_approx O.svdEcon X (max 1 (X.length / 10)) := by
  show low_rank_approx O.svdEcon X (seedRank X.length) = _
  rw [seedRank_eq]

/-- C3 (counterexample): at `m = 15` rows the spec formula rounds
`0.1 * 15 = 1.5` to `2` while the code truncates it to `1`; with an
economy-shaped SVD oracle for a `15 × 1` matrix the two rank bounds give
observably different results (the seed succeeds, rank 2 hits an index
error). -/
theorem complete_matrix_seed_rank_counterexample :
    seedRankSpec 15 = 2 ∧ seedRank 15 = 1 ∧
      completeMatrixSeed tallOracle tallX none ≠
        low_rank_approx tallOracle.svdEcon tallX (Int.toNat (seedRankSpec 15)) := by
  have hspec : seedRankSpec 15 = 2 := by
    unfold seedRankSpec
    rw [round_eq]
    norm_num
  have hseed : seedRank 15 = 1 := by
    unfold seedRank
    have hmax : max (1 : ℚ) ((15 : ℕ) * (1 / 10)) = 3 / 2 := by norm_num
    rw [hmax, show (3 : ℚ) / 2 = ((3 : ℕ) : ℚ) / ((2 : ℕ) : ℚ) by norm_num,
      Nat.floor_div_nat, Nat.floor_natCast]
  refine ⟨hspec, hseed, ?_⟩
  rw [show Int.toNat (seedRankSpec 15) = 2 by rw [hspec]; rfl]
  show low_rank_approx tallOracle.svdEcon tallX (seedRank tallX.length) ≠
    low_rank_approx tallOracle.svdEcon tallX 2
  have hlen : tallX.length = 15 := by simp [tallX]
  rw [hlen, hseed]
  decide

/-- C10: with an explicitly supplied initial estimate `Z0` and a zero
iteration budget, `complete_matrix` performs no iterations and returns `Z0`
unchanged (instrumentation: no division with zero denominator was executed
and the loop body ran zero times). -/
theorem complete_matrix_zero_budget {α : Type} [LinearOrderedField α]
    (O : NumOracle α) (X : Mat α) (lam beta sigma : α) (Z0 : Mat α) (tol : α) :
    complete_matrix O X lam beta sigma (some Z0) 0 tol = some (Z0, false, 0) :=
  rfl

/-- C4: if the loss of the seed estimate is zero, the first iteration of
`complete_matrix` evaluates the convergence ratio
`|loss_prev - loss_current| / loss_prev` with a zero denominator — the
division is executed unguarded (the run still returns a value; the
instrumentation flag records the zero-denominator division). -/
theorem complete_matrix_zero_loss_div_by_zero {α : Type} [LinearOrderedField α]
    (O : NumOracle α) (X : Mat α) (lam beta sigma tol : α) (Z0 : Mat α)
    (fuel : ℕ) (a : α)
    (ha : a = lam * npMax (O.svd X).2.1 * ((999999999999 : α) / 1000000000000) * beta)
    (h0 : lossF O a beta sigma Z0 = 0) :
    ∃ R k, complete_matrix O X lam beta sigma (some Z0) (fuel + 1) tol =
      some (R, true, k) := by
  have hcm : complete_matrix O X lam beta sigma (some Z0) (fuel + 1) tol =
      some (cmLoop O a beta sigma tol (O.svd X).1 (O.svd X).2.2 (O.svd X).2.1
        (fuel + 1) Z0 (lossF O a beta sigma Z0)) := by
    rw [ha]
    rfl
  rw [hcm, h0]
  exact ⟨(cmLoop O a beta sigma tol (O.svd X).1 (O.svd X).2.2 (O.svd X).2.1
      (fuel + 1) Z0 0).1,
    (cmLoop O a beta sigma tol (O.svd X).1 (O.svd X).2.2 (O.svd X).2.1
      (fuel + 1) Z0 0).2.2,
    by rw [← cmLoop_flag_of_zero O a beta sigma tol (O.svd X).1 (O.svd X).2.2
      (O.svd X).2.1 fuel Z0]⟩

/-- C4 witness: with an oracle whose primitives return empty and zero values
the seed loss is exactly zero, and a one-iteration run records the
zero-denominator division. -/
theorem complete_matrix_zero_loss_div_by_zero_witness :
    lossF zeroOracle
        (1 * npMax ((zeroOracle.svd [[1]]).2.1) *
          ((999999999999 : ℚ) / 1000000000000) * 1) 1 1 [[1]] = 0 ∧
      ∃ R k, complete_matrix zeroOracle [[1]] 1 1 1 (some [[1]]) (0 + 1) 0 =
        some (R, true, k) := by
  have h0 : lossF zeroOracle
      (1 * npMax ((zeroOracle.svd [[1]]).2.1) *
        ((999999999999 : ℚ) / 1000000000000) * 1) 1 1 [[1]] = 0 := by
    show (1 : ℚ) / (2 * 1) * 0 + ([] : List ℚ).sum = 0
    norm_num
  exact ⟨h0,
    complete_matrix_zero_loss_div_by_zero zeroOracle [[1]] 1 1 1 0 [[1]] 0
      (1 * npMax ((zeroOracle.svd [[1]]).2.1) *
        ((999999999999 : ℚ) / 1000000000000) * 1) rfl h0⟩

/-- C7: the `complete_matrix` loop executes at most `max_iter` iterations;
with at least one iteration of budget remaining after the current one, it
stops at the current iteration exactly when `loss_current = 0` or
`conv < tol`; and with a supplied seed the function always returns a value —
exhausting `max_iter` is not an error and raises no non-convergence signal. -/
theorem complete_matrix_loop_behavior {α : Type} [LinearOrderedField α]
    (O : NumOracle α) (a b sigma tol : α) (U V : Mat α) (dX : List α) :
    (∀ fuel (Z : Mat α) (l : α),
        (cmLoop O a b sigma tol U V dX fuel Z l).2.2 ≤ fuel) ∧
      (∀ fuel (Z : Mat α) (l : α),
        (cmLoop O a b sigma tol U V dX (fuel + 2) Z l).2.2 = 1 ↔
          ((cmStep O a b sigma U V dX Z l).2.1 = 0 ∨
            (cmStep O a b sigma U V dX Z l).2.2 < tol)) ∧
      (∀ (X : Mat α) (lam beta2 sigma2 : α) (Z0 : Mat α) (max_iter : ℕ)
          (tol2 : α),
        ∃ t, complete_matrix O X lam beta2 sigma2 (some Z0) max_iter tol2 =
          some t) := by
  refine ⟨cmLoop_iters_le O a b sigma tol U V dX, ?_, ?_⟩
  · intro fuel Z l
    by_cases hcond : (cmStep O a b sigma U V dX Z l).2.1 = 0 ∨
        (cmStep O a b sigma U V dX Z l).2.2 < tol
    · constructor
      · intro _
        exact hcond
      · intro _
        show (if _ then _ else _ : Mat α × Bool × ℕ).2.2 = 1
        rw [if_pos hcond]
    · constructor
      · intro hone
        exfalso
        have hpos := cmLoop_iters_pos O a b sigma tol U V dX fuel
          (cmStep O a b sigma U V dX Z l).1 (cmStep O a b sigma U V dX Z l).2.1
        have : (cmLoop O a b sigma tol U V dX (fuel + 2) Z l).2.2 =
            (cmLoop O a b sigma tol U V dX (fuel + 1)
              (cmStep O a b sigma U V dX Z l).1
              (cmStep O a b sigma U V dX Z l).2.1).2.2 + 1 := by
          show (if _ then _ else _ : Mat α × Bool × ℕ).2.2 = _
          rw [if_neg hcond]
        omega
      · intro hcond2
        exact absurd hcond2 hcond
  · intro X lam beta2 sigma2 Z0 max_iter tol2
    exact ⟨_, rfl⟩

end CompletionClaims

end PyMTLNumerics
